import Mathlib

set_option autoImplicit false

/-!
Shallow embedding of `pipeline/handleresult.py` (`TestResult.splitRP`):
a JUnit-XML report splitter.  XML documents are modelled as an inductive
tree mirroring `xml.dom.minidom` nodes; the DOM operations used by the
script (`getElementsByTagName`, `getAttribute`, `setAttribute`,
`appendChild`, `cloneNode`) are modelled as pure functions; file-system
and parser effects are modelled by an explicit `ParseResult` input and a
`SplitOutcome` record listing the files that would be written and the
messages that would be printed.
-/

/-- A minidom node: an element with a tag, an ordered attribute list and
ordered children, or a text node. -/
inductive Node where
  | elem (tag : String) (attrs : List (String × String)) (children : List Node)
  | text (s : String)
deriving Repr

/-- The children of a node (a text node has none). -/
def Node.childrenOf : Node → List Node
  | .elem _ _ cs => cs
  | .text _ => []

/-- The tag of a node; `""` for a text node. -/
def Node.tagOf : Node → String
  | .elem t _ _ => t
  | .text _ => ""

/-- The attribute list of a node; empty for a text node. -/
def Node.attrsOf : Node → List (String × String)
  | .elem _ a _ => a
  | .text _ => []

/-- Whether the node is an element node. -/
def Node.isElemNode : Node → Bool
  | .elem _ _ _ => true
  | .text _ => false

/-- First value bound to a key in an attribute list. -/
def lookupAttr : List (String × String) → String → Option String
  | [], _ => none
  | (k2, v2) :: rest, k => if k2 = k then some v2 else lookupAttr rest k

/-- minidom `getAttribute`: the attribute's value, or `""` when absent. -/
def Node.getAttribute (n : Node) (k : String) : String :=
  (lookupAttr n.attrsOf k).getD ""

/-- Replace the value of the first binding of `k` in place, or append a new
binding at the end — minidom `setAttribute` on the attribute list. -/
def setAttr : List (String × String) → String → String → List (String × String)
  | [], k, v => [(k, v)]
  | (k2, v2) :: rest, k, v => if k2 = k then (k, v) :: rest else (k2, v2) :: setAttr rest k v

/-- minidom `setAttribute` (no effect on a text node, which has no attributes). -/
def Node.setAttribute (n : Node) (k v : String) : Node :=
  match n with
  | .elem t a cs => .elem t (setAttr a k v) cs
  | .text s => .text s

/-- minidom `appendChild`: add a node at the end of the children. -/
def Node.appendChild (n : Node) (child : Node) : Node :=
  match n with
  | .elem t a cs => .elem t a (cs ++ [child])
  | .text s => .text s

/-- Append several children in order. -/
def Node.appendChildren (n : Node) (ks : List Node) : Node :=
  ks.foldl Node.appendChild n

/-- minidom `cloneNode`: a deep clone copies the whole subtree (on an
immutable tree, the tree itself); a shallow clone of an element drops its
children. -/
def Node.cloneNode : Bool → Node → Node
  | false, .elem t a _ => .elem t a []
  | _, n => n

mutual

/-- All element descendants of `n` with the given tag, in document
(preorder) order, `n` itself included when it matches. -/
def elemsIncl (tag : String) : Node → List Node
  | .text _ => []
  | .elem t a cs => (if t = tag then [Node.elem t a cs] else []) ++ elemsInclList tag cs

/-- `elemsIncl` over a list of sibling nodes, concatenated in order. -/
def elemsInclList (tag : String) : List Node → List Node
  | [] => []
  | c :: cs => elemsIncl tag c ++ elemsInclList tag cs

end

/-- minidom `Element.getElementsByTagName`: matching strict descendants of
`n`, in document order (the element itself is not included). -/
def Node.getElementsByTagName (n : Node) (tag : String) : List Node :=
  elemsInclList tag n.childrenOf

/-- minidom `Document.getElementsByTagName`: matching elements anywhere in
the document, the document element included.  The document is represented
by its root element. -/
def docGetElementsByTagName (root : Node) (tag : String) : List Node :=
  elemsIncl tag root

mutual

def Node.decEq : (a b : Node) → Decidable (a = b)
  | .text s1, .text s2 =>
      if h : s1 = s2 then isTrue (by rw [h]) else isFalse (by intro hh; cases hh; exact h rfl)
  | .elem t1 a1 c1, .elem t2 a2 c2 =>
      if h1 : t1 = t2 then
        if h2 : a1 = a2 then
          match Node.decEqList c1 c2 with
          | isTrue h3 => isTrue (by rw [h1, h2, h3])
          | isFalse h3 => isFalse (by intro hh; cases hh; exact h3 rfl)
        else isFalse (by intro hh; cases hh; exact h2 rfl)
      else isFalse (by intro hh; cases hh; exact h1 rfl)
  | .text _, .elem _ _ _ => isFalse (by intro hh; cases hh)
  | .elem _ _ _, .text _ => isFalse (by intro hh; cases hh)

def Node.decEqList : (a b : List Node) → Decidable (a = b)
  | [], [] => isTrue rfl
  | [], _ :: _ => isFalse (by intro hh; cases hh)
  | _ :: _, [] => isFalse (by intro hh; cases hh)
  | x :: xs, y :: ys =>
      match Node.decEq x y, Node.decEqList xs ys with
      | isTrue h1, isTrue h2 => isTrue (by rw [h1, h2])
      | isFalse h1, _ => isFalse (by intro hh; cases hh; exact h1 rfl)
      | _, isFalse h2 => isFalse (by intro hh; cases hh; exact h2 rfl)

end

instance : DecidableEq Node := Node.decEq

/-- Whether `sub` occurs as a contiguous run inside the character list. -/
def subOccurs (sub : List Char) : List Char → Bool
  | [] => sub.isEmpty
  | c :: cs => sub.isPrefixOf (c :: cs) || subOccurs sub cs

/-- Python's `sub in s` substring test. -/
def strContains (s sub : String) : Bool := subOccurs sub.data s.data

/-- The apostrophe character (code point 39). -/
def squoteChar : Char := Char.ofNat 39

/-- Python's `name.replace(<apostrophe>, "")`: remove every apostrophe
character (replacing each occurrence of the one-character pattern by the
empty string is exactly dropping those characters). -/
def stripQuotes (s : String) : String := String.mk (s.data.filter (fun c => c != squoteChar))

/-- The exclusion marker checked against each case name. -/
def beforeSuiteTag : String := "[BeforeSuite]"

/-- Line 25–26 of the source: `failcount = 1` iff the case has a `failure`
descendant. -/
def failCount (c : Node) : Nat :=
  if (c.getElementsByTagName "failure").length ≠ 0 then 1 else 0

/-- Line 27–28 of the source: `skippedcount = 1` iff the case has a
`skipped` descendant. -/
def skipCount (c : Node) : Nat :=
  if (c.getElementsByTagName "skipped").length ≠ 0 then 1 else 0

/-- The `casedesc` dictionary: the original case node paired with its list
of display names. -/
structure CaseDesc where
  caseNode : Node
  names : List String
deriving Repr, DecidableEq

/-- One bucket (`mods[subteam]`): case records and running counters, field
order as in the source's dict literal. -/
structure Bucket where
  cases : List CaseDesc
  tests : Nat
  skipped : Nat
  failure : Nat
  errors : Nat
deriving Repr, DecidableEq

/-- The `mods` dictionary, as an insertion-ordered association list
(Python dicts iterate in insertion order). -/
abbrev Mods := List (String × Bucket)

/-- Python dict lookup `mods.get(k)`. -/
def lookupMod : Mods → String → Option Bucket
  | [], _ => none
  | (k2, m2) :: rest, k => if k2 = k then some m2 else lookupMod rest k

/-- Python dict store: replace the value of an existing key in place, or
append a new key at the end. -/
def modsSet : Mods → String → Bucket → Mods
  | [], k, m => [(k, m)]
  | (k2, m2) :: rest, k, m => if k2 = k then (k, m) :: rest else (k2, m2) :: modsSet rest k m

/-- The body of the first `for case in cases` loop (lines 21–50): classify
the case, skip it when its name contains `[BeforeSuite]`, otherwise record
it in the `Cluster_Infrastructure` bucket and bump the counters. -/
def processCase (mods : Mods) (c : Node) : Mods :=
  let failcount := failCount c
  let skippedcount := skipCount c
  let errorcount : Nat := 0
  let nm := c.getAttribute "name"
  let subteam := "Cluster_Infrastructure"
  if strContains nm beforeSuiteTag then mods
  else
    let tmpname := stripQuotes nm
    let names := [tmpname]
    let casedesc : CaseDesc := { caseNode := c, names := names }
    match lookupMod mods subteam with
    | some mod =>
        modsSet mods subteam
          { mod with
            cases := mod.cases ++ [casedesc]
            tests := mod.tests + 1
            skipped := mod.skipped + skippedcount
            failure := mod.failure + failcount }
    | none =>
        mods ++ [(subteam,
          { cases := [casedesc]
            tests := 1
            skipped := skippedcount
            failure := failcount
            errors := errorcount })]

/-- The whole bucketing pass over the document-order case list. -/
def buildMods (cs : List Node) : Mods := cs.foldl processCase []

/-- Lines 72–77: the per-case `result` string — `PASS`, overridden to
`SKIP` when a `skipped` descendant exists, then to `FAIL` when a `failure`
descendant exists. -/
def caseResult (c : Node) : String :=
  let result := "PASS"
  let result := if (c.getElementsByTagName "skipped").length ≠ 0 then "SKIP" else result
  let result := if (c.getElementsByTagName "failure").length ≠ 0 then "FAIL" else result
  result

/-- Body of the `for name in case["names"]` loop (lines 79–90): bump the
per-case tallies according to `result`, clone the case, rename it, and
append it to the suite under construction.  Accumulator:
`(testnum, failnum, skipnum, testsuite)`. -/
def nameStep (result : String) (c : Node) (acc : Nat × Nat × Nat × Node) (nm : String) :
    Nat × Nat × Nat × Node :=
  let (testnum, failnum, skipnum, suite) := acc
  let testnum := if result = "PASS" then testnum + 1 else testnum
  let testnum := if result = "FAIL" then testnum + 1 else testnum
  let failnum := if result = "FAIL" then failnum + 1 else failnum
  let skipnum := if result = "SKIP" then skipnum + 1 else skipnum
  let testnum := if result = "SKIP" then testnum + 1 else testnum
  let dupcase := (Node.cloneNode true c).setAttribute "name" nm
  (testnum, failnum, skipnum, suite.appendChild dupcase)

/-- Body of the `for case in v["cases"]` loop (lines 71–105): run the name
loop from zero tallies, decrement each positive tally by one, and add the
remainders to the bucket counters.  Accumulator:
`(testsuite, testscount, failurescount, skippedcount)`. -/
def caseStep (st : Node × Nat × Nat × Nat) (cd : CaseDesc) : Node × Nat × Nat × Nat :=
  let (suite, testscount, failurescount, skippedcount) := st
  let result := caseResult cd.caseNode
  let (testnum, failnum, skipnum, suite) :=
    cd.names.foldl (nameStep result cd.caseNode) (0, 0, 0, suite)
  let testnum := if testnum > 0 then testnum - 1 else testnum
  let failnum := if failnum > 0 then failnum - 1 else failnum
  let skipnum := if skipnum > 0 then skipnum - 1 else skipnum
  (suite, testscount + testnum, failurescount + failnum, skippedcount + skipnum)

/-- Body of the `for k, v in mods.items()` loop (lines 52–111): build the
output `testsuite` element for one bucket and the name of the file it is
written to. -/
def emitBucket (isJenkinsEnv : Bool) (originTime : String) (k : String) (v : Bucket) :
    String × Node :=
  let testsuite : Node := .elem "testsuite" [] []
  let testscount := v.tests
  let failurescount := v.failure
  let skippedcount := v.skipped
  let errorcount := v.errors
  let testsuite := testsuite.setAttribute "time" originTime
  let newsuitename := if isJenkinsEnv then k else k
  let testsuite := testsuite.setAttribute "name" newsuitename
  let (testsuite, testscount, failurescount, skippedcount) :=
    v.cases.foldl caseStep (testsuite, testscount, failurescount, skippedcount)
  let testsuite := testsuite.setAttribute "tests" (Nat.repr testscount)
  let testsuite := testsuite.setAttribute "failures" (Nat.repr failurescount)
  let testsuite := testsuite.setAttribute "skipped" (Nat.repr skippedcount)
  let testsuite := testsuite.setAttribute "errors" (Nat.repr errorcount)
  ("import-" ++ k ++ ".xml", testsuite)

/-- Outcome of `xml.dom.minidom.parse(input)`: the file is missing
(`FileNotFoundError`), it exists but is not well-formed XML (a parse
exception), or parsing succeeds with a document whose representative is
its root element. -/
inductive ParseResult where
  | notFound
  | malformed
  | ok (doc : Node)
deriving Repr, DecidableEq

/-- The two diagnostics printed by the handlers at lines 112–115. -/
inductive LogMsg where
  | inputNotFound (path : String)
  | processingError (path : String)
deriving Repr, DecidableEq

/-- Observable outcome of one `splitRP` call: the files written (name and
document root), the diagnostics printed, and whether an exception escaped
to the caller. -/
structure SplitOutcome where
  files : List (String × Node)
  log : List LogMsg
  raised : Bool
deriving Repr, DecidableEq

/-- `TestResult.splitRP` (lines 14–115).  The `try` body parses the input,
takes the first `testsuite` element (an out-of-range index when there is
none is an `IndexError`, caught by the generic handler), buckets the
cases, and emits one file per bucket; `FileNotFoundError` and any other
exception are caught and printed, so the call never raises. -/
def splitRP (isJenkinsEnv : Bool) (input : String) (parsed : ParseResult) : SplitOutcome :=
  match parsed with
  | .notFound => { files := [], log := [.inputNotFound input], raised := false }
  | .malformed => { files := [], log := [.processingError input], raised := false }
  | .ok doc =>
    match docGetElementsByTagName doc "testsuite" with
    | [] => { files := [], log := [.processingError input], raised := false }
    | origintestsuite :: _ =>
      let cases := docGetElementsByTagName doc "testcase"
      let mods := buildMods cases
      let files := mods.map
        (fun kv => emitBucket isJenkinsEnv (origintestsuite.getAttribute "time") kv.1 kv.2)
      { files := files, log := [], raised := false }

/-! ### Basic lemmas about the DOM operations -/

@[simp] theorem appendChildren_nil (n : Node) : n.appendChildren [] = n := rfl

theorem appendChildren_cons (n x : Node) (xs : List Node) :
    n.appendChildren (x :: xs) = (n.appendChild x).appendChildren xs := rfl

theorem appendChildren_elem (t : String) (a : List (String × String)) :
    ∀ (ks cs : List Node), (Node.elem t a cs).appendChildren ks = Node.elem t a (cs ++ ks)
  | [], cs => by simp
  | k :: ks, cs => by
      rw [appendChildren_cons, Node.appendChild, appendChildren_elem t a ks (cs ++ [k])]
      simp

@[simp] theorem childrenOf_setAttribute (n : Node) (k v : String) :
    (n.setAttribute k v).childrenOf = n.childrenOf := by
  cases n <;> rfl

@[simp] theorem tagOf_setAttribute (n : Node) (k v : String) :
    (n.setAttribute k v).tagOf = n.tagOf := by
  cases n <;> rfl

@[simp] theorem cloneNode_true (n : Node) : Node.cloneNode true n = n := by
  cases n <;> rfl

theorem lookupAttr_setAttr_self (k v : String) :
    ∀ (a : List (String × String)), lookupAttr (setAttr a k v) k = some v
  | [] => by simp [setAttr, lookupAttr]
  | (k2, v2) :: rest => by
      by_cases h : k2 = k
      · simp [setAttr, lookupAttr, h]
      · simp [setAttr, lookupAttr, h, lookupAttr_setAttr_self k v rest]

theorem lookupAttr_setAttr_ne (k v k' : String) (hne : k' ≠ k) :
    ∀ (a : List (String × String)), lookupAttr (setAttr a k v) k' = lookupAttr a k'
  | [] => by simp [setAttr, lookupAttr, Ne.symm hne]
  | (k2, v2) :: rest => by
      by_cases h : k2 = k
      · subst h
        simp [setAttr, lookupAttr, Ne.symm hne]
      · simp [setAttr, lookupAttr, h, lookupAttr_setAttr_ne k v k' hne rest]

theorem getAttribute_setAttribute_self (t : String) (a : List (String × String))
    (cs : List Node) (k v : String) :
    ((Node.elem t a cs).setAttribute k v).getAttribute k = v := by
  simp [Node.setAttribute, Node.getAttribute, Node.attrsOf, lookupAttr_setAttr_self]

theorem getAttribute_setAttribute_ne (n : Node) (k v k' : String) (hne : k' ≠ k) :
    (n.setAttribute k v).getAttribute k' = n.getAttribute k' := by
  cases n with
  | elem t a cs =>
      simp [Node.setAttribute, Node.getAttribute, Node.attrsOf, lookupAttr_setAttr_ne k v k' hne]
  | text s => rfl

/-! ### Membership in `getElementsByTagName` -/

mutual

theorem tagOf_of_mem_elemsIncl (tag : String) :
    ∀ (n x : Node), x ∈ elemsIncl tag n → x.tagOf = tag
  | .text _, x, h => by simp [elemsIncl] at h
  | .elem t a cs, x, h => by
      simp only [elemsIncl] at h
      rcases List.mem_append.mp h with h1 | h2
      · by_cases ht : t = tag
        · rw [if_pos ht] at h1
          rcases List.mem_singleton.mp h1 with rfl
          simpa [Node.tagOf] using ht
        · rw [if_neg ht] at h1
          simp at h1
      · exact tagOf_of_mem_elemsInclList tag cs x h2

theorem tagOf_of_mem_elemsInclList (tag : String) :
    ∀ (l : List Node) (x : Node), x ∈ elemsInclList tag l → x.tagOf = tag
  | [], x, h => by simp [elemsInclList] at h
  | c :: cs, x, h => by
      simp only [elemsInclList] at h
      rcases List.mem_append.mp h with h1 | h2
      · exact tagOf_of_mem_elemsIncl tag c x h1
      · exact tagOf_of_mem_elemsInclList tag cs x h2

end

theorem self_mem_elemsIncl (tag : String) (a : List (String × String)) (cs : List Node) :
    Node.elem tag a cs ∈ elemsIncl tag (Node.elem tag a cs) := by
  simp [elemsIncl]

theorem mem_elemsInclList_of_mem_elemsIncl (tag : String) (m x : Node) :
    ∀ (l : List Node), m ∈ l → x ∈ elemsIncl tag m → x ∈ elemsInclList tag l
  | [], hm, _ => by simp at hm
  | c :: cs, hm, hx => by
      simp only [elemsInclList]
      rcases List.mem_cons.mp hm with rfl | hm2
      · exact List.mem_append_left _ hx
      · exact List.mem_append_right _ (mem_elemsInclList_of_mem_elemsIncl tag m x cs hm2 hx)

theorem mem_elemsIncl_of_mem_children (tag : String) (x : Node) (t : String)
    (a : List (String × String)) (cs : List Node)
    (hx : x ∈ elemsInclList tag cs) :
    x ∈ elemsIncl tag (Node.elem t a cs) := by
  simp only [elemsIncl]
  exact List.mem_append_right _ hx

/-! ### Characterizing the bucketing pass -/

/-- The constant bucket key every included case is routed to. -/
def subteamKey : String := "Cluster_Infrastructure"

/-- A case is included when its name does not contain `[BeforeSuite]`. -/
def includedCase (c : Node) : Bool := !(strContains (c.getAttribute "name") beforeSuiteTag)

/-- The record stored for one included case. -/
def mkCaseDesc (c : Node) : CaseDesc :=
  { caseNode := c, names := [stripQuotes (c.getAttribute "name")] }

/-- Effect of one included case on an existing bucket. -/
def addCase (m : Bucket) (c : Node) : Bucket :=
  { m with
    cases := m.cases ++ [mkCaseDesc c]
    tests := m.tests + 1
    skipped := m.skipped + skipCount c
    failure := m.failure + failCount c }

/-- The fresh bucket created for the first included case. -/
def emptyFor (c : Node) : Bucket :=
  { cases := [mkCaseDesc c], tests := 1, skipped := skipCount c,
    failure := failCount c, errors := 0 }

theorem includedCase_eq_true_iff (c : Node) :
    includedCase c = true ↔ strContains (c.getAttribute "name") beforeSuiteTag = false := by
  simp [includedCase]

theorem includedCase_eq_false_iff (c : Node) :
    includedCase c = false ↔ strContains (c.getAttribute "name") beforeSuiteTag = true := by
  simp [includedCase]

theorem processCase_excluded (mods : Mods) (c : Node)
    (h : strContains (c.getAttribute "name") beforeSuiteTag = true) :
    processCase mods c = mods := by
  simp [processCase, h]

theorem processCase_included (mods : Mods) (c : Node)
    (h : strContains (c.getAttribute "name") beforeSuiteTag = false) :
    processCase mods c =
      match lookupMod mods subteamKey with
      | some m => modsSet mods subteamKey (addCase m c)
      | none => mods ++ [(subteamKey, emptyFor c)] := by
  simp [processCase, h, subteamKey, addCase, emptyFor, mkCaseDesc]

theorem processCase_included_single (m : Bucket) (c : Node)
    (h : strContains (c.getAttribute "name") beforeSuiteTag = false) :
    processCase [(subteamKey, m)] c = [(subteamKey, addCase m c)] := by
  rw [processCase_included _ _ h]
  simp [lookupMod, modsSet, subteamKey]

theorem processCase_included_empty (c : Node)
    (h : strContains (c.getAttribute "name") beforeSuiteTag = false) :
    processCase [] c = [(subteamKey, emptyFor c)] := by
  rw [processCase_included _ _ h]
  simp [lookupMod]

theorem foldl_processCase_single :
    ∀ (cs : List Node) (m : Bucket),
      cs.foldl processCase [(subteamKey, m)] =
        [(subteamKey, (cs.filter includedCase).foldl addCase m)]
  | [], m => by simp
  | c :: cs, m => by
      by_cases hc : includedCase c
      · rw [List.foldl_cons,
          processCase_included_single m c ((includedCase_eq_true_iff c).mp hc),
          foldl_processCase_single cs (addCase m c), List.filter_cons_of_pos hc,
          List.foldl_cons]
      · rw [List.foldl_cons,
          processCase_excluded _ c ((includedCase_eq_false_iff c).mp (Bool.eq_false_iff.mpr hc)),
          foldl_processCase_single cs m,
          List.filter_cons_of_neg (by simpa using hc)]

theorem buildMods_eq_nil :
    ∀ (cs : List Node), cs.filter includedCase = [] → buildMods cs = []
  | [], _ => rfl
  | c :: cs, h => by
      rw [List.filter_cons] at h
      by_cases hc : includedCase c
      · rw [if_pos hc] at h
        exact absurd h (List.cons_ne_nil _ _)
      · rw [if_neg hc] at h
        have := buildMods_eq_nil cs h
        unfold buildMods at this ⊢
        rw [List.foldl_cons,
          processCase_excluded _ c ((includedCase_eq_false_iff c).mp (Bool.eq_false_iff.mpr hc))]
        exact this

theorem buildMods_eq_single :
    ∀ (cs : List Node) (c0 : Node) (rest : List Node),
      cs.filter includedCase = c0 :: rest →
      buildMods cs = [(subteamKey, rest.foldl addCase (emptyFor c0))]
  | [], c0, rest, h => by simp at h
  | c :: cs, c0, rest, h => by
      rw [List.filter_cons] at h
      by_cases hc : includedCase c
      · rw [if_pos hc] at h
        injection h with h1 h2
        subst h1
        unfold buildMods
        rw [List.foldl_cons,
          processCase_included_empty c ((includedCase_eq_true_iff c).mp hc),
          foldl_processCase_single cs (emptyFor c), h2]
      · rw [if_neg hc] at h
        have := buildMods_eq_single cs c0 rest h
        unfold buildMods at this ⊢
        rw [List.foldl_cons,
          processCase_excluded _ c ((includedCase_eq_false_iff c).mp (Bool.eq_false_iff.mpr hc))]
        exact this

theorem foldl_addCase_cases :
    ∀ (l : List Node) (m : Bucket),
      (l.foldl addCase m).cases = m.cases ++ l.map mkCaseDesc
  | [], m => by simp
  | c :: l, m => by
      rw [List.foldl_cons, foldl_addCase_cases l (addCase m c)]
      simp [addCase]

/-! ### Characterizing the emission pass -/

/-- The clone emitted for a one-name case record: the original node with
its `name` attribute overwritten by the record's display name. -/
def emittedOne (cd : CaseDesc) : Node :=
  (Node.cloneNode true cd.caseNode).setAttribute "name" cd.names.headI

theorem caseStep_singleton (su : Node) (tc fc sc : Nat) (cd : CaseDesc) (nm : String)
    (h : cd.names = [nm]) :
    caseStep (su, tc, fc, sc) cd =
      (su.appendChild ((Node.cloneNode true cd.caseNode).setAttribute "name" nm), tc, fc, sc) := by
  by_cases hP : caseResult cd.caseNode = "PASS" <;>
    by_cases hF : caseResult cd.caseNode = "FAIL" <;>
      by_cases hS : caseResult cd.caseNode = "SKIP" <;>
        simp_all [caseStep, nameStep]

theorem foldl_caseStep_singletons :
    ∀ (cds : List CaseDesc) (su : Node) (tc fc sc : Nat),
      (∀ cd ∈ cds, ∃ nm, cd.names = [nm]) →
      cds.foldl caseStep (su, tc, fc, sc) =
        (su.appendChildren (cds.map emittedOne), tc, fc, sc)
  | [], su, tc, fc, sc, _ => by simp
  | cd :: cds, su, tc, fc, sc, hall => by
      obtain ⟨nm, hnm⟩ := hall cd (List.mem_cons_self cd cds)
      rw [List.foldl_cons, caseStep_singleton su tc fc sc cd nm hnm,
        foldl_caseStep_singletons cds _ tc fc sc
          (fun cd2 h2 => hall cd2 (List.mem_cons_of_mem cd h2)),
        List.map_cons, appendChildren_cons]
      simp [emittedOne, hnm]

theorem emitBucket_singletons (b : Bool) (t k : String) (v : Bucket)
    (hall : ∀ cd ∈ v.cases, ∃ nm, cd.names = [nm]) :
    emitBucket b t k v =
      ("import-" ++ k ++ ".xml",
        Node.elem "testsuite"
          [("time", t), ("name", if b then k else k),
           ("tests", Nat.repr v.tests), ("failures", Nat.repr v.failure),
           ("skipped", Nat.repr v.skipped), ("errors", Nat.repr v.errors)]
          (v.cases.map emittedOne)) := by
  unfold emitBucket
  dsimp only
  rw [foldl_caseStep_singletons v.cases _ v.tests v.failure v.skipped hall]
  rw [show ((Node.elem "testsuite" [] []).setAttribute "time" t).setAttribute "name"
      (if b then k else k) =
      Node.elem "testsuite" [("time", t), ("name", if b then k else k)] [] from rfl]
  rw [appendChildren_elem]
  rfl

/-- Refinement target, following the spec's words: emit the bucket
document by writing the bucket's summed counters directly on the
`testsuite` (no per-case recompute pass); the clones are appended exactly
as the code does, one per display name. -/
def emitBucketSpec (isJenkinsEnv : Bool) (originTime : String) (k : String) (v : Bucket) :
    String × Node :=
  let testsuite : Node := .elem "testsuite" [] []
  let testsuite := testsuite.setAttribute "time" originTime
  let newsuitename := if isJenkinsEnv then k else k
  let testsuite := testsuite.setAttribute "name" newsuitename
  let testsuite := testsuite.appendChildren
    (v.cases.foldl
      (fun acc cd =>
        acc ++ cd.names.map (fun nm => (Node.cloneNode true cd.caseNode).setAttribute "name" nm))
      [])
  let testsuite := testsuite.setAttribute "tests" (Nat.repr v.tests)
  let testsuite := testsuite.setAttribute "failures" (Nat.repr v.failure)
  let testsuite := testsuite.setAttribute "skipped" (Nat.repr v.skipped)
  let testsuite := testsuite.setAttribute "errors" (Nat.repr v.errors)
  ("import-" ++ k ++ ".xml", testsuite)

theorem foldl_names_append :
    ∀ (cds : List CaseDesc) (acc : List Node),
      cds.foldl
        (fun acc cd =>
          acc ++ cd.names.map (fun nm => (Node.cloneNode true cd.caseNode).setAttribute "name" nm))
        acc
      = acc ++ cds.foldl
          (fun acc cd =>
            acc ++ cd.names.map (fun nm => (Node.cloneNode true cd.caseNode).setAttribute "name" nm))
          []
  | [], acc => by simp
  | cd :: cds, acc => by
      rw [List.foldl_cons, List.foldl_cons,
        foldl_names_append cds (acc ++ _), foldl_names_append cds ([] ++ _)]
      simp

theorem foldl_names_singletons :
    ∀ (cds : List CaseDesc),
      (∀ cd ∈ cds, ∃ nm, cd.names = [nm]) →
      cds.foldl
        (fun acc cd =>
          acc ++ cd.names.map (fun nm => (Node.cloneNode true cd.caseNode).setAttribute "name" nm))
        []
      = cds.map emittedOne
  | [], _ => rfl
  | cd :: cds, hall => by
      obtain ⟨nm, hnm⟩ := hall cd (List.mem_cons_self cd cds)
      rw [List.foldl_cons, foldl_names_append,
        foldl_names_singletons cds (fun cd2 h2 => hall cd2 (List.mem_cons_of_mem cd h2))]
      simp [emittedOne, hnm]

theorem emitBucketSpec_singletons (b : Bool) (t k : String) (v : Bucket)
    (hall : ∀ cd ∈ v.cases, ∃ nm, cd.names = [nm]) :
    emitBucketSpec b t k v =
      ("import-" ++ k ++ ".xml",
        Node.elem "testsuite"
          [("time", t), ("name", if b then k else k),
           ("tests", Nat.repr v.tests), ("failures", Nat.repr v.failure),
           ("skipped", Nat.repr v.skipped), ("errors", Nat.repr v.errors)]
          (v.cases.map emittedOne)) := by
  unfold emitBucketSpec
  dsimp only
  rw [foldl_names_singletons v.cases hall]
  rw [show ((Node.elem "testsuite" [] []).setAttribute "time" t).setAttribute "name"
      (if b then k else k) =
      Node.elem "testsuite" [("time", t), ("name", if b then k else k)] [] from rfl]
  rw [appendChildren_elem]
  rfl

/-! ### Counter totals across the dictionary -/

/-- The sum of one counter over every bucket of the dictionary. -/
def totalOf (f : Bucket → Nat) (mods : Mods) : Nat :=
  (mods.map (fun kv => f kv.2)).sum

theorem totalOf_modsSet (f : Bucket → Nat) (k : String) (m m' : Bucket) :
    ∀ (mods : Mods), lookupMod mods k = some m →
      totalOf f (modsSet mods k m') + f m = totalOf f mods + f m'
  | [], h => by simp [lookupMod] at h
  | (k2, m2) :: rest, h => by
      by_cases hk : k2 = k
      · rw [lookupMod, if_pos hk] at h
        injection h with h2
        subst h2
        simp [modsSet, hk, totalOf]
        omega
      · rw [lookupMod, if_neg hk] at h
        have := totalOf_modsSet f k m m' rest h
        simp only [modsSet, if_neg hk, totalOf, List.map_cons, List.sum_cons] at *
        omega

theorem totalOf_processCase (f : Bucket → Nat) (c : Node) (d : Nat)
    (hadd : ∀ m, f (addCase m c) = f m + d) (hempty : f (emptyFor c) = d)
    (hin : strContains (c.getAttribute "name") beforeSuiteTag = false) :
    ∀ (mods : Mods), totalOf f (processCase mods c) = totalOf f mods + d := by
  intro mods
  rw [processCase_included mods c hin]
  cases hl : lookupMod mods subteamKey with
  | some m =>
      dsimp only
      have h2 := totalOf_modsSet f subteamKey m (addCase m c) mods hl
      rw [hadd m] at h2
      omega
  | none =>
      dsimp only
      simp [totalOf, hempty]

/-! ### Descendants at arbitrary depth -/

/-- `Desc d p`: `d` is a strict descendant of `p` (a child, or a
descendant of a child). -/
inductive Desc : Node → Node → Prop where
  | child {d p : Node} : d ∈ p.childrenOf → Desc d p
  | deeper {d m p : Node} : Desc d m → m ∈ p.childrenOf → Desc d p

theorem mem_elemsInclList_self (tag : String) (x : Node)
    (helem : x.isElemNode = true) (htag : x.tagOf = tag) :
    ∀ (l : List Node), x ∈ l → x ∈ elemsInclList tag l
  | [], hm => by simp at hm
  | c :: cs, hm => by
      simp only [elemsInclList]
      rcases List.mem_cons.mp hm with rfl | hm2
      · apply List.mem_append_left
        cases x with
        | text s => simp [Node.isElemNode] at helem
        | elem t a cs2 =>
            have ht : t = tag := htag
            subst ht
            exact self_mem_elemsIncl t a cs2
      · exact List.mem_append_right _ (mem_elemsInclList_self tag x helem htag cs hm2)

theorem mem_getElements_of_desc (tag : String) :
    ∀ (x p : Node), Desc x p → x.isElemNode = true → x.tagOf = tag →
      x ∈ p.getElementsByTagName tag := by
  intro x p hdesc
  induction hdesc with
  | child hm =>
      intro helem htag
      unfold Node.getElementsByTagName
      exact mem_elemsInclList_self tag _ helem htag _ hm
  | deeper hdm hmp ih =>
      intro helem htag
      unfold Node.getElementsByTagName
      rename_i m p2
      have hmem := ih helem htag
      unfold Node.getElementsByTagName at hmem
      cases m with
      | text s => simp [Node.childrenOf, elemsInclList] at hmem
      | elem t2 a2 cs2 =>
          exact mem_elemsInclList_of_mem_elemsIncl tag _ x p2.childrenOf hmp
            (mem_elemsIncl_of_mem_children tag x t2 a2 cs2 hmem)

/-! ### Characterizing `splitRP` on a successfully parsed document -/

theorem splitRP_ok (b : Bool) (p : String) (doc ts : Node) (rest : List Node)
    (h : docGetElementsByTagName doc "testsuite" = ts :: rest) :
    splitRP b p (.ok doc) =
      { files := (buildMods (docGetElementsByTagName doc "testcase")).map
          (fun kv => emitBucket b (ts.getAttribute "time") kv.1 kv.2),
        log := [], raised := false } := by
  simp only [splitRP, h]

theorem buildMods_cases_eq (cs : List Node) (kv : String × Bucket)
    (hmem : kv ∈ buildMods cs) :
    kv.2.cases = (cs.filter includedCase).map mkCaseDesc := by
  cases hf : cs.filter includedCase with
  | nil =>
      rw [buildMods_eq_nil cs hf] at hmem
      simp at hmem
  | cons c0 rest =>
      rw [buildMods_eq_single cs c0 rest hf] at hmem
      rcases List.mem_singleton.mp hmem with rfl
      simp [foldl_addCase_cases, emptyFor]

theorem bucket_names_singletons (cs : List Node) (kv : String × Bucket)
    (hmem : kv ∈ buildMods cs) :
    ∀ cd ∈ kv.2.cases, ∃ nm, cd.names = [nm] := by
  intro cd hcd
  rw [buildMods_cases_eq cs kv hmem] at hcd
  rcases List.mem_map.mp hcd with ⟨c, _, rfl⟩
  exact ⟨stripQuotes (c.getAttribute "name"), rfl⟩

/-! ### Concrete fixtures used by the witnesses -/

/-- The name `b` followed by an apostrophe. -/
def quoteName : String := "b" ++ String.mk [squoteChar]

def c2CaseA : Node := .elem "testcase" [("name", "a")] []

def c2CaseB : Node := .elem "testcase" [("name", quoteName)] [.elem "failure" [] []]

/-- The input of the spec's concrete example: one `testsuite` with
`time="12.3"`, a passing case `a` and a failing case `b` + apostrophe. -/
def c2Doc : Node := .elem "testsuite" [("time", "12.3")] [c2CaseA, c2CaseB]

/-- A case carrying both a `failure` and a `skipped` child. -/
def bothCase : Node :=
  .elem "testcase" [("name", "c")] [.elem "failure" [] [], .elem "skipped" [] []]

def bothDoc : Node := .elem "testsuite" [("time", "1")] [bothCase]

/-- A plain passing case. -/
def plainCase : Node := .elem "testcase" [("name", "p")] []

/-- A case whose name contains the exclusion marker. -/
def beforeCase : Node := .elem "testcase" [("name", "[BeforeSuite] setup")] []

def failElem : Node := .elem "failure" [] []

def skipElem : Node := .elem "skipped" [] []

/-- A wrapper element holding `failure` and `skipped` elements, so that
they are descendants of the case but not direct children. -/
def wrapperNode : Node := .elem "wrapper" [] [failElem, skipElem]

/-- A case whose `failure`/`skipped` markers are nested one level deep. -/
def nestedBoth : Node := .elem "testcase" [("name", "n")] [wrapperNode]

/-! ### The claims -/

/-- C1, counterexample: on a case carrying both a `failure` and a
`skipped` child, the emitted bucket has `failures="1"` and also
`skipped="1"` — the skipped counter IS incremented, contradicting the
claim that only the failure path counts. -/
theorem c1_counterexample :
    (bothCase.getElementsByTagName "failure").length ≠ 0 ∧
    (bothCase.getElementsByTagName "skipped").length ≠ 0 ∧
    (splitRP false "r.xml" (.ok bothDoc)).files.map
      (fun f => (f.2.getAttribute "failures", f.2.getAttribute "skipped")) = [("1", "1")] := by
  decide

/-- C1, amended: for a non-excluded case with both a `failure` and a
`skipped` descendant, the bucketing pass increments the `failures`
counter by exactly 1 AND the `skipped` counter by exactly 1 (and `tests`
by 1): the two counting paths are independent, not mutually exclusive. -/
theorem c1_amended (mods : Mods) (c : Node)
    (hf : (c.getElementsByTagName "failure").length ≠ 0)
    (hs : (c.getElementsByTagName "skipped").length ≠ 0)
    (hin : strContains (c.getAttribute "name") beforeSuiteTag = false) :
    totalOf Bucket.failure (processCase mods c) = totalOf Bucket.failure mods + 1 ∧
    totalOf Bucket.skipped (processCase mods c) = totalOf Bucket.skipped mods + 1 ∧
    totalOf Bucket.tests (processCase mods c) = totalOf Bucket.tests mods + 1 := by
  refine ⟨?_, ?_, ?_⟩
  · exact totalOf_processCase Bucket.failure c 1
      (fun m => by simp [addCase, failCount, hf])
      (by simp [emptyFor, failCount, hf]) hin mods
  · exact totalOf_processCase Bucket.skipped c 1
      (fun m => by simp [addCase, skipCount, hs])
      (by simp [emptyFor, skipCount, hs]) hin mods
  · exact totalOf_processCase Bucket.tests c 1
      (fun m => by simp [addCase])
      (by simp [emptyFor]) hin mods

/-- Witness for the amended C1 at the concrete both-children case. -/
theorem c1_amended_witness :
    ((bothCase.getElementsByTagName "failure").length ≠ 0 ∧
     (bothCase.getElementsByTagName "skipped").length ≠ 0 ∧
     strContains (bothCase.getAttribute "name") beforeSuiteTag = false) ∧
    (totalOf Bucket.failure (processCase [] bothCase) = totalOf Bucket.failure [] + 1 ∧
     totalOf Bucket.skipped (processCase [] bothCase) = totalOf Bucket.skipped [] + 1 ∧
     totalOf Bucket.tests (processCase [] bothCase) = totalOf Bucket.tests [] + 1) :=
  ⟨⟨by decide, by decide, by decide⟩,
   c1_amended [] bothCase (by decide) (by decide) (by decide)⟩

/-- C2: on the spec's concrete example input, split produces exactly one
file `import-Cluster_Infrastructure.xml` whose `testsuite` has
`time="12.3"`, `name="Cluster_Infrastructure"`, `tests="2"`,
`failures="1"`, `skipped="0"`, `errors="0"` and exactly the two
`testcase` children named `a` and `b` (apostrophe stripped) — for either
value of the environment flag. -/
theorem c2_concrete_split : ∀ (b : Bool),
    (splitRP b "result.xml" (.ok c2Doc)).files.map Prod.fst
      = ["import-Cluster_Infrastructure.xml"] ∧
    ∀ f ∈ (splitRP b "result.xml" (.ok c2Doc)).files,
      f.2.tagOf = "testsuite" ∧
      f.2.getAttribute "time" = "12.3" ∧
      f.2.getAttribute "name" = "Cluster_Infrastructure" ∧
      f.2.getAttribute "tests" = "2" ∧
      f.2.getAttribute "failures" = "1" ∧
      f.2.getAttribute "skipped" = "0" ∧
      f.2.getAttribute "errors" = "0" ∧
      f.2.childrenOf.map (fun c => c.getAttribute "name") = ["a", "b"] ∧
      f.2.childrenOf.map Node.tagOf = ["testcase", "testcase"] := by
  decide

/-- C4: a case whose name contains `[BeforeSuite]` is excluded entirely:
processing it leaves the bucket dictionary unchanged, so the whole
bucketing pass gives the same dictionary (same buckets, same counters)
as if the case were absent from the case list. -/
theorem c4_beforesuite_excluded (mods : Mods) (c : Node) (pre post : List Node)
    (h : strContains (c.getAttribute "name") beforeSuiteTag = true) :
    processCase mods c = mods ∧
    buildMods (pre ++ c :: post) = buildMods (pre ++ post) := by
  constructor
  · exact processCase_excluded mods c h
  · unfold buildMods
    rw [List.foldl_append, List.foldl_append, List.foldl_cons, processCase_excluded _ c h]

/-- Witness for C4 at the case named `[BeforeSuite] setup`. -/
theorem c4_witness :
    strContains (beforeCase.getAttribute "name") beforeSuiteTag = true ∧
    (processCase [] beforeCase = [] ∧
     buildMods ([plainCase] ++ beforeCase :: []) = buildMods ([plainCase] ++ [])) :=
  ⟨by decide, c4_beforesuite_excluded [] beforeCase [plainCase] [] (by decide)⟩

/-- C5: on a missing input file split writes no files, prints the
input-not-found diagnostic and returns normally; on a malformed input it
writes no files, prints the generic processing error and returns
normally — in both cases nothing is raised to the caller. -/
theorem c5_missing_or_malformed (b : Bool) (p : String) :
    splitRP b p .notFound
      = { files := [], log := [.inputNotFound p], raised := false } ∧
    splitRP b p .malformed
      = { files := [], log := [.processingError p], raised := false } :=
  ⟨rfl, rfl⟩

/-- C6: when every case record of a bucket holds exactly one display
name, the adjusted emission (tallies recomputed per case, decremented by
one and added on top of the summed counters) is the same document as
simply emitting the bucket's summed counters. -/
theorem c6_adjustment_noop (b : Bool) (t k : String) (v : Bucket)
    (hone : ∀ cd ∈ v.cases, cd.names.length = 1) :
    emitBucket b t k v = emitBucketSpec b t k v := by
  have hall : ∀ cd ∈ v.cases, ∃ nm, cd.names = [nm] := by
    intro cd hcd
    exact List.length_eq_one.mp (hone cd hcd)
  rw [emitBucket_singletons b t k v hall, emitBucketSpec_singletons b t k v hall]

/-- A one-case bucket used as the C6 witness input. -/
def v0 : Bucket :=
  { cases := [{ caseNode := plainCase, names := ["p"] }],
    tests := 1, skipped := 0, failure := 0, errors := 0 }

/-- Witness for C6 on a concrete one-name-per-case bucket. -/
theorem c6_witness :
    (∀ cd ∈ v0.cases, cd.names.length = 1) ∧
    emitBucket false "1.0" "K" v0 = emitBucketSpec false "1.0" "K" v0 :=
  ⟨by decide, c6_adjustment_noop false "1.0" "K" v0 (by decide)⟩

theorem emitBucket_env_independent (b b2 : Bool) (t k : String) (v : Bucket) :
    emitBucket b t k v = emitBucket b2 t k v := by
  cases b <;> cases b2 <;> rfl

/-- C7: split is a pure function of the parsed input (determinism), and
its outcome — files written and diagnostics — is identical whether or
not the CI-agent environment flag is set, since both branches of the
environment check assign the same suite name. -/
theorem c7_env_independent (b b2 : Bool) (p : String) (inp : ParseResult) :
    splitRP b p inp = splitRP b2 p inp := by
  cases inp with
  | notFound => rfl
  | malformed => rfl
  | ok doc =>
      cases h : docGetElementsByTagName doc "testsuite" with
      | nil => simp only [splitRP, h]
      | cons ts rest =>
          simp only [splitRP, h, SplitOutcome.mk.injEq, and_true]
          exact List.map_congr_left
            (fun kv _ => emitBucket_env_independent b b2 (ts.getAttribute "time") kv.1 kv.2)

/-- C9: on well-formed XML containing no `testsuite` element, the index
error from taking the first `testsuite` is caught by the generic
handler: split writes no files, prints the generic processing error and
returns normally. -/
theorem c9_no_testsuite (b : Bool) (p : String) (doc : Node)
    (h : docGetElementsByTagName doc "testsuite" = []) :
    splitRP b p (.ok doc)
      = { files := [], log := [.processingError p], raised := false } := by
  simp only [splitRP, h]

/-- Witness for C9 on a document whose root is not a `testsuite`. -/
theorem c9_witness :
    docGetElementsByTagName (Node.elem "root" [] []) "testsuite" = [] ∧
    splitRP false "in.xml" (.ok (Node.elem "root" [] []))
      = { files := [], log := [.processingError "in.xml"], raised := false } :=
  ⟨by decide, c9_no_testsuite false "in.xml" (Node.elem "root" [] []) (by decide)⟩

/-- C10: a `failure` (resp. `skipped`) element anywhere among a case's
descendants — at any depth, not only as a direct child — makes the case
count as failed (resp. skipped): `failcount`/`skippedcount` is 1 and the
bucket's counter is incremented. -/
theorem c10_descendant_classification (c d e : Node) (mods : Mods)
    (hin : strContains (c.getAttribute "name") beforeSuiteTag = false) :
    (Desc d c → d.isElemNode = true → d.tagOf = "failure" →
      failCount c = 1 ∧
      totalOf Bucket.failure (processCase mods c) = totalOf Bucket.failure mods + 1) ∧
    (Desc e c → e.isElemNode = true → e.tagOf = "skipped" →
      skipCount c = 1 ∧
      totalOf Bucket.skipped (processCase mods c) = totalOf Bucket.skipped mods + 1) := by
  constructor
  · intro hdesc helem htag
    have hmem := mem_getElements_of_desc "failure" d c hdesc helem htag
    have hlen : (c.getElementsByTagName "failure").length ≠ 0 := by
      intro h0
      rw [List.length_eq_zero] at h0
      rw [h0] at hmem
      simp at hmem
    refine ⟨by simp [failCount, hlen], ?_⟩
    exact totalOf_processCase Bucket.failure c 1
      (fun m => by simp [addCase, failCount, hlen])
      (by simp [emptyFor, failCount, hlen]) hin mods
  · intro hdesc helem htag
    have hmem := mem_getElements_of_desc "skipped" e c hdesc helem htag
    have hlen : (c.getElementsByTagName "skipped").length ≠ 0 := by
      intro h0
      rw [List.length_eq_zero] at h0
      rw [h0] at hmem
      simp at hmem
    refine ⟨by simp [skipCount, hlen], ?_⟩
    exact totalOf_processCase Bucket.skipped c 1
      (fun m => by simp [addCase, skipCount, hlen])
      (by simp [emptyFor, skipCount, hlen]) hin mods

/-- Witness for C10 on a case whose markers sit under a wrapper child. -/
theorem c10_witness :
    (failCount nestedBoth = 1 ∧
      totalOf Bucket.failure (processCase [] nestedBoth) = totalOf Bucket.failure [] + 1) ∧
    (skipCount nestedBoth = 1 ∧
      totalOf Bucket.skipped (processCase [] nestedBoth) = totalOf Bucket.skipped [] + 1) :=
  ⟨(c10_descendant_classification nestedBoth failElem skipElem [] (by decide)).1
      (@Desc.deeper failElem wrapperNode nestedBoth
        (@Desc.child failElem wrapperNode (by decide)) (by decide))
      (by decide) (by decide),
   (c10_descendant_classification nestedBoth failElem skipElem [] (by decide)).2
      (@Desc.deeper skipElem wrapperNode nestedBoth
        (@Desc.child skipElem wrapperNode (by decide)) (by decide))
      (by decide) (by decide)⟩

/-- C3: on any parsed document that has a `testsuite` element, the
concatenation of the `testcase` children over all output files is
exactly one renamed clone per included input case, in document order —
so every case whose name does not contain `[BeforeSuite]` lands in
exactly one output `testsuite` (none dropped, none duplicated); and
likewise the concatenation of all buckets' case lists is exactly one
record per included case. -/
theorem c3_exactly_once (b : Bool) (p : String) (doc : Node)
    (hts : docGetElementsByTagName doc "testsuite" ≠ []) :
    ((splitRP b p (.ok doc)).files.map (fun f => f.2.childrenOf)).flatten
      = ((docGetElementsByTagName doc "testcase").filter includedCase).map
          (fun c => (Node.cloneNode true c).setAttribute "name"
            (stripQuotes (c.getAttribute "name"))) ∧
    ((buildMods (docGetElementsByTagName doc "testcase")).map (fun kv => kv.2.cases)).flatten
      = ((docGetElementsByTagName doc "testcase").filter includedCase).map mkCaseDesc := by
  obtain ⟨ts, rest, h⟩ : ∃ ts rest, docGetElementsByTagName doc "testsuite" = ts :: rest := by
    cases hh : docGetElementsByTagName doc "testsuite" with
    | nil => exact absurd hh hts
    | cons a l => exact ⟨a, l, rfl⟩
  rw [splitRP_ok b p doc ts rest h]
  cases hf : (docGetElementsByTagName doc "testcase").filter includedCase with
  | nil =>
      rw [buildMods_eq_nil _ hf]
      simp
  | cons c0 crest =>
      rw [buildMods_eq_single _ c0 crest hf]
      have hcases : (crest.foldl addCase (emptyFor c0)).cases = (c0 :: crest).map mkCaseDesc := by
        rw [foldl_addCase_cases]
        simp [emptyFor]
      have hall : ∀ cd ∈ (crest.foldl addCase (emptyFor c0)).cases, ∃ nm, cd.names = [nm] := by
        rw [hcases]
        intro cd hcd
        rcases List.mem_map.mp hcd with ⟨c, _, rfl⟩
        exact ⟨stripQuotes (c.getAttribute "name"), rfl⟩
      constructor
      · simp only [List.map_cons, List.map_nil, List.flatten_cons, List.flatten_nil,
          List.append_nil]
        rw [emitBucket_singletons b (ts.getAttribute "time") subteamKey _ hall]
        simp only [Node.childrenOf]
        rw [hcases, List.map_map]
        apply List.map_congr_left
        intro c _
        simp [emittedOne, mkCaseDesc]
      · simp only [List.map_cons, List.map_nil, List.flatten_cons, List.flatten_nil,
          List.append_nil]
        exact hcases

/-- Witness for C3 on the two-case document (one case passing, one
failing). -/
theorem c3_witness :
    docGetElementsByTagName c2Doc "testsuite" ≠ [] ∧
    (((splitRP false "r.xml" (.ok c2Doc)).files.map (fun f => f.2.childrenOf)).flatten
      = ((docGetElementsByTagName c2Doc "testcase").filter includedCase).map
          (fun c => (Node.cloneNode true c).setAttribute "name"
            (stripQuotes (c.getAttribute "name"))) ∧
     ((buildMods (docGetElementsByTagName c2Doc "testcase")).map
        (fun kv => kv.2.cases)).flatten
      = ((docGetElementsByTagName c2Doc "testcase").filter includedCase).map mkCaseDesc) :=
  ⟨by decide, c3_exactly_once false "r.xml" c2Doc (by decide)⟩

/-- C8: every `testcase` child of an output document is the deep clone of
an input case in which only the `name` attribute was overwritten (with
the apostrophe-stripped original name): the tag, the children and every
other attribute are preserved unchanged. -/
theorem c8_clone_frame (b : Bool) (p : String) (doc : Node) (fname : String)
    (suite child : Node)
    (hfile : (fname, suite) ∈ (splitRP b p (.ok doc)).files)
    (hchild : child ∈ suite.childrenOf) :
    ∃ c ∈ docGetElementsByTagName doc "testcase",
      child = (Node.cloneNode true c).setAttribute "name"
        (stripQuotes (c.getAttribute "name")) ∧
      child.tagOf = c.tagOf ∧
      child.childrenOf = c.childrenOf ∧
      child.getAttribute "name" = stripQuotes (c.getAttribute "name") ∧
      ∀ a, a ≠ "name" → child.getAttribute a = c.getAttribute a := by
  cases h : docGetElementsByTagName doc "testsuite" with
  | nil =>
      rw [show splitRP b p (.ok doc)
          = { files := [], log := [.processingError p], raised := false }
        from by simp only [splitRP, h]] at hfile
      simp at hfile
  | cons ts rest =>
      rw [splitRP_ok b p doc ts rest h] at hfile
      rcases List.mem_map.mp hfile with ⟨kv, hkv, heq⟩
      have hall := bucket_names_singletons _ kv hkv
      rw [emitBucket_singletons b (ts.getAttribute "time") kv.1 kv.2 hall] at heq
      have hsuite : suite
          = Node.elem "testsuite"
              [("time", ts.getAttribute "time"), ("name", if b then kv.1 else kv.1),
               ("tests", Nat.repr kv.2.tests), ("failures", Nat.repr kv.2.failure),
               ("skipped", Nat.repr kv.2.skipped), ("errors", Nat.repr kv.2.errors)]
              (kv.2.cases.map emittedOne) := by
        have := congrArg Prod.snd heq
        simpa using this.symm
      rw [hsuite] at hchild
      simp only [Node.childrenOf] at hchild
      rcases List.mem_map.mp hchild with ⟨cd, hcd, rfl⟩
      rw [buildMods_cases_eq _ kv hkv] at hcd
      rcases List.mem_map.mp hcd with ⟨c, hcmem, rfl⟩
      have hcdoc : c ∈ docGetElementsByTagName doc "testcase" :=
        List.mem_of_mem_filter hcmem
      have htag : c.tagOf = "testcase" :=
        tagOf_of_mem_elemsIncl "testcase" doc c hcdoc
      refine ⟨c, hcdoc, ?_, ?_, ?_, ?_, ?_⟩
      · simp [emittedOne, mkCaseDesc]
      · simp [emittedOne, mkCaseDesc]
      · simp [emittedOne, mkCaseDesc]
      · cases c with
        | text s => simp [Node.tagOf] at htag
        | elem t a cs =>
            simp only [emittedOne, mkCaseDesc, cloneNode_true, List.headI]
            exact getAttribute_setAttribute_self t a cs "name" _
      · intro a ha
        simp only [emittedOne, mkCaseDesc, cloneNode_true, List.headI]
        exact getAttribute_setAttribute_ne c "name" _ a ha

/-- The output suite produced for the two-case document. -/
def c2OutSuite : Node :=
  .elem "testsuite"
    [("time", "12.3"), ("name", "Cluster_Infrastructure"), ("tests", "2"),
     ("failures", "1"), ("skipped", "0"), ("errors", "0")]
    [.elem "testcase" [("name", "a")] [],
     .elem "testcase" [("name", "b")] [.elem "failure" [] []]]

/-- The clone emitted for the failing case: apostrophe stripped from the
name, failure child preserved. -/
def c2CloneB : Node := .elem "testcase" [("name", "b")] [.elem "failure" [] []]

/-- Witness for C8 on the renamed clone of the failing case. -/
theorem c8_witness :
    (("import-Cluster_Infrastructure.xml", c2OutSuite)
        ∈ (splitRP false "r.xml" (.ok c2Doc)).files ∧
      c2CloneB ∈ c2OutSuite.childrenOf) ∧
    (∃ c ∈ docGetElementsByTagName c2Doc "testcase",
      c2CloneB = (Node.cloneNode true c).setAttribute "name"
        (stripQuotes (c.getAttribute "name")) ∧
      c2CloneB.tagOf = c.tagOf ∧
      c2CloneB.childrenOf = c.childrenOf ∧
      c2CloneB.getAttribute "name" = stripQuotes (c.getAttribute "name") ∧
      ∀ a, a ≠ "name" → c2CloneB.getAttribute a = c.getAttribute a) :=
  ⟨⟨by decide, by decide⟩,
   c8_clone_frame false "r.xml" c2Doc "import-Cluster_Infrastructure.xml"
     c2OutSuite c2CloneB (by decide) (by decide)⟩
